import Mathlib

/-!
Verification of the futex-based mutex in `src/futex_mutex.cc` (SuperMalloc).

The source file implements four operations on a two-field mutex
(`lock`, `wait`, both C `int`s):

* `futex_mutex_lock`    — bounded spin, then escalate (+2) into a
  kernel-assisted slow loop; returns 0 on a pure spin acquisition and 1
  when at least one `futex_wait` was issued.
* `futex_mutex_unlock`  — `fetch_add(-1)` capturing the prior value,
  then either a single wake on the `lock` address or (when the captured
  value was 0) the wait-channel branch.
* `futex_mutex_subscribe` — returns `lock & 1`.
* `futex_mutex_wait`    — spins until `lock == 0`, escalating to a
  kernel wait on the `wait` address.

Two embeddings are developed:

1. Sequential models of each operation, faithful to the order of the
   shared-memory accesses.  Environment interference is an oracle
   `env : Nat → Int` giving the value of `lock` observed at each shared
   access, and `kret : Nat → Int` gives the (discarded) return values of
   the kernel wait calls.  Each model also emits the list of
   shared-memory events it performs, so frame conditions ("mutates
   `wait` only") and wake targeting are provable facts rather than
   modelling artifacts.

2. A sequentially consistent interleaving semantics (`Step`, `Reach`)
   for any number of threads running lock/unlock cycles, with one
   transition per shared-memory access, used for the concurrency claims
   (mutual exclusion and the per-phase characterizations of the
   acquisition paths).

C `int` arithmetic is modelled as mathematical integers reduced by
`wrap32` (two's-complement wrap-around) at every arithmetic write, so
overflow behaviour is explicit.
-/

/-- Two's-complement wrap-around of a 32-bit signed integer. -/
def wrap32 (x : Int) : Int :=
  (x + 2147483648) % 4294967296 - 2147483648

/-- Range of a 32-bit signed integer. -/
def int32Range (x : Int) : Prop :=
  -2147483648 ≤ x ∧ x < 2147483648

theorem wrap32_range (x : Int) : int32Range (wrap32 x) := by
  unfold wrap32 int32Range
  omega

theorem wrap32_eq_self {x : Int} (h : int32Range x) : wrap32 x = x := by
  unfold wrap32
  unfold int32Range at h
  omega

theorem wrap32_emod_two (x : Int) : wrap32 x % 2 = x % 2 := by
  unfold wrap32
  omega

/-- The mutex state: the two shared `int` fields of `futex_mutex_t`.
The `lock` field is twice the number of registered contenders plus one
when the mutex is held; the `wait` field is the wait-for-free
rendezvous flag. -/
structure futex_mutex_t where
  lock : Int
  wait : Int
deriving DecidableEq, Repr

/-- Shared-memory events an operation can perform, used to state frame
conditions and wake targeting.  `faddLock d old` is a
`__sync_fetch_and_add(&m->lock, d)` observing `old`; `casLockOk` /
`casLockFail` are the two outcomes of
`__sync_bool_compare_and_swap(&m->lock, old, new)`;
`kwaitLock` / `kwaitWait` are `futex_wait` on the respective addresses;
`wakeOneLock` / `wakeAllWait` are the two wake calls. -/
inductive MemEv where
  | readLock (v : Int)
  | casLockOk (old newv : Int)
  | casLockFail (old seen : Int)
  | faddLock (d old : Int)
  | readWait (v : Int)
  | writeWait (v : Int)
  | kwaitLock (expected : Int)
  | kwaitWait (expected : Int)
  | wakeOneLock
  | wakeAllWait
deriving DecidableEq, Repr

/-- Does the event write the `lock` field? -/
def mutatesLock : MemEv → Bool
  | .casLockOk _ _ => true
  | .faddLock _ _ => true
  | _ => false

/-- Does the event write the `wait` field? -/
def mutatesWait : MemEv → Bool
  | .writeWait _ => true
  | _ => false

/-- Sequential model of `futex_mutex_unlock` (lines 68-80): atomically
subtract 1 from `lock` capturing the prior value `old_c`; if
`old_c != 0` issue a single wake on the `lock` address, otherwise read
`wait` and, when it is nonzero, clear it and wake all sleepers on the
`wait` address.  Returns the new mutex state and the event trace. -/
def futex_mutex_unlock (m : futex_mutex_t) : futex_mutex_t × List MemEv :=
  let old_c := m.lock
  let l2 := wrap32 (m.lock - 1)
  if old_c ≠ 0 then
    (⟨l2, m.wait⟩, [.faddLock (-1) old_c, .wakeOneLock])
  else if m.wait ≠ 0 then
    (⟨l2, 0⟩, [.faddLock (-1) old_c, .readWait m.wait, .writeWait 0, .wakeAllWait])
  else
    (⟨l2, m.wait⟩, [.faddLock (-1) old_c, .readWait m.wait])

/-- Sequential model of `futex_mutex_subscribe` (lines 82-84): a single
atomic read of `lock`, returning its low bit (`m->lock & 1`, i.e. the
nonnegative remainder mod 2 in two's complement), leaving the mutex
untouched. -/
def futex_mutex_subscribe (m : futex_mutex_t) : Int × futex_mutex_t × List MemEv :=
  (m.lock % 2, m, [.readLock m.lock])

/-- Results of `n` successive `futex_mutex_subscribe` calls, threading
the (unchanged) mutex state through. -/
def subscribeSeq : futex_mutex_t → Nat → List Int
  | _, 0 => []
  | m, n + 1 =>
    (futex_mutex_subscribe m).1 :: subscribeSeq (futex_mutex_subscribe m).2.1 n

/-- C5: on a held mutex (`lock` odd, i.e. bit 0 set), Release performs a
single subtraction of 1, taking `lock` from `v = 2*k+1` to `2*k`: bit 0
is cleared and the upper bits (the registered-contender count `k`) are
unchanged. -/
theorem unlock_clears_lock_bit (m : futex_mutex_t)
    (hodd : m.lock % 2 = 1) (hr : int32Range m.lock) :
    ∃ k : Int, m.lock = 2 * k + 1 ∧
      (futex_mutex_unlock m).1.lock = 2 * k ∧
      (futex_mutex_unlock m).1.lock % 2 = 0 ∧
      (futex_mutex_unlock m).1.wait = m.wait := by
  unfold int32Range at hr
  have hne : m.lock ≠ 0 := by omega
  have hw : wrap32 (m.lock - 1) = m.lock - 1 :=
    wrap32_eq_self (by unfold int32Range; omega)
  refine ⟨(m.lock - 1) / 2, by omega, ?_, ?_, ?_⟩ <;>
    simp only [futex_mutex_unlock, if_pos hne, hw] <;> omega

/-- Witness for C5 at the concrete held state `lock = 3`, `wait = 0`. -/
theorem unlock_clears_lock_bit_witness :
    ((3 : Int) % 2 = 1 ∧ int32Range 3) ∧
      ∃ k : Int, (3 : Int) = 2 * k + 1 ∧
        (futex_mutex_unlock ⟨3, 0⟩).1.lock = 2 * k ∧
        (futex_mutex_unlock ⟨3, 0⟩).1.lock % 2 = 0 ∧
        (futex_mutex_unlock ⟨3, 0⟩).1.wait = 0 :=
  ⟨⟨by decide, by unfold int32Range; exact ⟨by decide, by decide⟩⟩,
    unlock_clears_lock_bit ⟨3, 0⟩ (by decide)
      (by unfold int32Range; exact ⟨by decide, by decide⟩)⟩

/-- C10: Release on a free, uncontended mutex (`lock = 0`, the
hold-the-mutex precondition violated) leaves `lock = -1` and runs the
wait-channel branch: no wake is issued on the `lock` address, and when
`wait` is nonzero it is cleared and all sleepers on the `wait` address
are woken. -/
theorem unlock_on_free_mutex (w : Int) :
    (futex_mutex_unlock ⟨0, w⟩).1.lock = -1 ∧
      MemEv.wakeOneLock ∉ (futex_mutex_unlock ⟨0, w⟩).2 ∧
      (w ≠ 0 →
        (futex_mutex_unlock ⟨0, w⟩).1.wait = 0 ∧
        MemEv.wakeAllWait ∈ (futex_mutex_unlock ⟨0, w⟩).2) := by
  have h0 : ¬ ((0 : Int) ≠ 0) := by simp
  have hm1 : wrap32 (0 - 1) = -1 := by decide
  by_cases hw : w ≠ 0
  · simp only [futex_mutex_unlock, if_neg h0, if_pos hw]
    exact ⟨hm1, by simp, fun _ => ⟨by simp, by simp⟩⟩
  · simp only [futex_mutex_unlock, if_neg h0, if_neg hw]
    exact ⟨hm1, by simp, fun h => absurd h hw⟩

/-- Witness for C10 at `wait = 5`. -/
theorem unlock_on_free_mutex_witness :
    (futex_mutex_unlock ⟨0, 5⟩).1.lock = -1 ∧
      MemEv.wakeOneLock ∉ (futex_mutex_unlock ⟨0, 5⟩).2 ∧
      ((5 : Int) ≠ 0 →
        (futex_mutex_unlock ⟨0, 5⟩).1.wait = 0 ∧
        MemEv.wakeAllWait ∈ (futex_mutex_unlock ⟨0, 5⟩).2) :=
  unlock_on_free_mutex 5

/-- C2 (failing-input evaluation): releasing a held, uncontended mutex
captures the pre-subtraction value 1, and because the code tests
`old_c != 0` (not `old_c != 1`), it issues the single wake on the
`lock` address and leaves `wait` set — it does not test-and-clear
`wait` and does not wake the sleepers on the `wait` address, contrary
to the claim (and to the source's own comment at lines 100-104, which
expects the unlock that takes `lock` to 0 to clear `wait` and issue the
wake-all). -/
theorem unlock_at_captured_one_wakes_lock_only :
    futex_mutex_unlock ⟨1, 1⟩ =
      (⟨0, 1⟩, [.faddLock (-1) 1, .wakeOneLock]) ∧
      MemEv.wakeAllWait ∉ (futex_mutex_unlock ⟨1, 1⟩).2 ∧
      (futex_mutex_unlock ⟨1, 1⟩).1.wait = 1 := by
  refine ⟨?_, by decide, by decide⟩
  have h1 : ((1 : Int) ≠ 0) := by decide
  have h00 : wrap32 (1 - 1) = 0 := by decide
  simp only [futex_mutex_unlock, if_pos h1, h00]

/-- C8: Subscribe returns the low bit of a single read of `lock`,
performs exactly that one read, changes nothing, and on a freshly
zero-initialized, never-locked mutex every call in any sequence of
repeated Subscribe calls returns 0. -/
theorem subscribe_spec :
    (∀ m : futex_mutex_t,
      (futex_mutex_subscribe m).1 = m.lock % 2 ∧
      (futex_mutex_subscribe m).2.1 = m ∧
      (futex_mutex_subscribe m).2.2 = [.readLock m.lock]) ∧
    (∀ n : Nat, ∀ x ∈ subscribeSeq ⟨0, 0⟩ n, x = 0) := by
  refine ⟨fun m => ⟨rfl, rfl, rfl⟩, fun n => ?_⟩
  induction n with
  | zero => intro x hx; simp [subscribeSeq] at hx
  | succ n ih =>
    intro x hx
    simp only [subscribeSeq, List.mem_cons] at hx
    rcases hx with h | h
    · simpa [futex_mutex_subscribe] using h
    · exact ih x h

/-- Witness for C8: the third of three repeated Subscribe calls on the
zero-initialized mutex returns 0. -/
theorem subscribe_spec_witness :
    (0 : Int) ∈ subscribeSeq ⟨0, 0⟩ 3 ∧ (0 : Int) = 0 :=
  ⟨by decide, subscribe_spec.2 3 0 (by decide)⟩

/-- Is the event a kernel wait call? -/
def isKernelWait : MemEv → Bool
  | .kwaitLock _ => true
  | .kwaitWait _ => true
  | _ => false

/-- Adjacency discipline of WaitForFree traces: every kernel wait event
is `kwaitWait 1` (wait on the `wait` address with expected value 1) and
is immediately preceded by the store `writeWait 1`. -/
def kwDisc (a b : MemEv) : Prop :=
  isKernelWait b = true → b = .kwaitWait 1 ∧ a = .writeWait 1

/-- Position of the first of the next `k` observations of `lock` that
equals 0 (the spin loop's exit test `m->lock == 0`). -/
def findZero (env : Nat → Int) : Nat → Nat → Option Nat
  | _, 0 => none
  | base, k + 1 => if env base = 0 then some base else findZero env (base + 1) k

/-- Events of one spin segment: atomic reads of `lock` until a zero is
observed (inclusive), bounded by `k` reads. -/
def spinEvs (env : Nat → Int) : Nat → Nat → List MemEv
  | _, 0 => []
  | base, k + 1 =>
    .readLock (env base) :: (if env base = 0 then [] else spinEvs env (base + 1) k)

/-- Sequential model of `futex_mutex_wait` (lines 86-98).  Each outer
round spins up to `lock_spin_count = 20` reads of `lock`, returning the
accumulated `did_futex` flag as soon as a read observes 0; otherwise it
stores `wait = 1`, performs `futex_wait(&m->wait, 1)` (whose return
value, supplied by the oracle `kret`, is discarded), sets
`did_futex = 1` and restarts.  `env` supplies the `lock` values the
reads observe, `fuel` bounds the number of rounds (the C loop is
unbounded), and the result carries the event trace. -/
def futex_mutex_wait (env kret : Nat → Int) : Nat → Nat → Bool → Option (Bool × List MemEv)
  | 0, _, _ => none
  | fuel + 1, base, df =>
    if (findZero env base 20).isSome then
      some (df, spinEvs env base 20)
    else
      let _ret : Int := kret base
      match futex_mutex_wait env kret fuel (base + 20) true with
      | none => none
      | some (r, evs) =>
        some (r, spinEvs env base 20 ++ .writeWait 1 :: .kwaitWait 1 :: evs)

theorem spinEvs_forall_read (env : Nat → Int) :
    ∀ (k base : Nat), ∀ e ∈ spinEvs env base k, ∃ v, e = .readLock v := by
  intro k
  induction k with
  | zero => intro base e he; simp [spinEvs] at he
  | succ k ih =>
    intro base e he
    simp only [spinEvs, List.mem_cons] at he
    rcases he with h | h
    · exact ⟨env base, h⟩
    · by_cases hz : env base = 0
      · rw [if_pos hz] at h; simp at h
      · rw [if_neg hz] at h; exact ih (base + 1) e h

theorem spinEvs_head (env : Nat → Int) (base k : Nat) :
    (spinEvs env base (k + 1)).head? = some (.readLock (env base)) := rfl

theorem spinEvs_last (env : Nat → Int) :
    ∀ (k base : Nat), (findZero env base k).isSome →
      (spinEvs env base k).getLast? = some (.readLock 0) := by
  intro k
  induction k with
  | zero => intro base h; simp [findZero] at h
  | succ k ih =>
    intro base h
    by_cases hz : env base = 0
    · simp [spinEvs, if_pos hz, hz]
    · simp only [findZero, if_neg hz] at h
      have htail := ih (base + 1) h
      have hne : spinEvs env (base + 1) k ≠ [] := by
        intro hnil; rw [hnil] at htail; simp at htail
      calc (spinEvs env base (k + 1)).getLast?
          = ([MemEv.readLock (env base)] ++ spinEvs env (base + 1) k).getLast? := by
            simp [spinEvs, if_neg hz]
        _ = (spinEvs env (base + 1) k).getLast? :=
            List.getLast?_append_of_ne_nil _ hne
        _ = some (.readLock 0) := htail

theorem chain'_kwDisc_of_reads {l : List MemEv}
    (h : ∀ e ∈ l, ∃ v, e = .readLock v) : List.Chain' kwDisc l := by
  induction l with
  | nil => exact List.chain'_nil
  | cons a l ih =>
    refine List.chain'_cons'.2 ⟨?_, ih fun e he => h e (List.mem_cons_of_mem a he)⟩
    intro y hy hkw
    obtain ⟨v, hv⟩ := h y (List.mem_cons_of_mem a (List.mem_of_mem_head? hy))
    rw [hv] at hkw
    simp [isKernelWait] at hkw

theorem fmw_sound (env kret : Nat → Int) :
    ∀ (fuel : Nat), ∀ (base : Nat) (df r : Bool) (evs : List MemEv),
      futex_mutex_wait env kret fuel base df = some (r, evs) →
      evs.getLast? = some (.readLock 0) ∧
      evs.head? = some (.readLock (env base)) ∧
      (r = true ↔ (df = true ∨ MemEv.kwaitWait 1 ∈ evs)) ∧
      List.Chain' kwDisc evs ∧
      (∀ e ∈ evs, mutatesLock e = false ∧ (mutatesWait e = true → e = .writeWait 1)) := by
  intro fuel
  induction fuel with
  | zero => intro base df r evs h; simp [futex_mutex_wait] at h
  | succ fuel ih =>
    intro base df r evs h
    simp only [futex_mutex_wait] at h
    by_cases hz : (findZero env base 20).isSome
    · rw [if_pos hz] at h
      obtain ⟨hr, hevs⟩ : df = r ∧ spinEvs env base 20 = evs := by
        have := h
        simp at this
        exact this
      subst hr
      subst hevs
      have hreads := spinEvs_forall_read env 20 base
      refine ⟨spinEvs_last env 20 base hz, spinEvs_head env base 19, ?_, ?_, ?_⟩
      · constructor
        · intro h1; exact Or.inl h1
        · intro h1
          rcases h1 with h1 | h1
          · exact h1
          · obtain ⟨v, hv⟩ := hreads _ h1; simp at hv
      · exact chain'_kwDisc_of_reads hreads
      · intro e he
        obtain ⟨v, hv⟩ := hreads e he
        subst hv
        exact ⟨rfl, by intro hmw; simp [mutatesWait] at hmw⟩
    · rw [if_neg hz] at h
      cases hrec : futex_mutex_wait env kret fuel (base + 20) true with
      | none => rw [hrec] at h; simp at h
      | some p =>
        obtain ⟨r2, evs2⟩ := p
        rw [hrec] at h
        obtain ⟨hr, hevs⟩ : r2 = r ∧
            spinEvs env base 20 ++ .writeWait 1 :: .kwaitWait 1 :: evs2 = evs := by
          have := h
          simp at this
          exact this
        subst hr
        subst hevs
        obtain ⟨ih1, ih2, ih3, ih4, ih5⟩ := ih (base + 20) true r2 evs2 hrec
        have hreads := spinEvs_forall_read env 20 base
        have hne2 : evs2 ≠ [] := by
          intro hnil; rw [hnil] at ih1; simp at ih1
        refine ⟨?_, ?_, ?_, ?_, ?_⟩
        · calc (spinEvs env base 20 ++ .writeWait 1 :: .kwaitWait 1 :: evs2).getLast?
              = (MemEv.writeWait 1 :: .kwaitWait 1 :: evs2).getLast? :=
                List.getLast?_append_cons _ _ _
            _ = ([MemEv.writeWait 1, .kwaitWait 1] ++ evs2).getLast? := rfl
            _ = evs2.getLast? := List.getLast?_append_of_ne_nil _ hne2
            _ = some (.readLock 0) := ih1
        · have : spinEvs env base 20 =
              .readLock (env base) :: (if env base = 0 then [] else spinEvs env (base + 1) 19) := rfl
          rw [this]
          rfl
        · have hr2 : r2 = true := ih3.2 (Or.inl rfl)
          subst hr2
          simp only [true_iff, iff_true]
          exact Or.inr (by simp)
        · refine List.Chain'.append (chain'_kwDisc_of_reads hreads) ?_ ?_
          · refine List.chain'_cons'.2 ⟨?_, List.chain'_cons'.2 ⟨?_, ih4⟩⟩
            · intro y hy
              simp only [List.head?_cons, Option.mem_def, Option.some.injEq] at hy
              subst hy
              intro _
              exact ⟨rfl, rfl⟩
            · intro y hy hkw
              rw [ih2] at hy
              simp only [Option.mem_def, Option.some.injEq] at hy
              subst hy
              simp [isKernelWait] at hkw
          · intro x _ y hy
            simp only [List.head?_cons, Option.mem_def, Option.some.injEq] at hy
            subst hy
            intro hkw
            simp [isKernelWait] at hkw
        · intro e he
          rcases List.mem_append.1 he with h1 | h1
          · obtain ⟨v, hv⟩ := hreads e h1
            subst hv
            exact ⟨rfl, by intro hmw; simp [mutatesWait] at hmw⟩
          · rcases List.mem_cons.1 h1 with h2 | h2
            · subst h2; exact ⟨rfl, fun _ => rfl⟩
            · rcases List.mem_cons.1 h2 with h3 | h3
              · subst h3; exact ⟨rfl, by intro hmw; simp [mutatesWait] at hmw⟩
              · exact ih5 e h3

/-- C7: WaitForFree returns only when a spin check has just observed
`lock = 0` (the final event of its trace is that read); its result is 1
exactly when it performed at least one kernel wait; every kernel wait
is on the `wait` address with expected value 1 and is immediately
preceded by the store `wait = 1`; and it never writes `lock` — the only
write it ever performs is `wait = 1`. -/
theorem wait_for_free_spec (env kret : Nat → Int) (fuel base : Nat) (r : Bool)
    (evs : List MemEv)
    (h : futex_mutex_wait env kret fuel base false = some (r, evs)) :
    evs.getLast? = some (.readLock 0) ∧
    (r = true ↔ MemEv.kwaitWait 1 ∈ evs) ∧
    List.Chain' kwDisc evs ∧
    (∀ e ∈ evs.head?, isKernelWait e = false) ∧
    (∀ e ∈ evs, mutatesLock e = false ∧ (mutatesWait e = true → e = .writeWait 1)) := by
  obtain ⟨h1, h2, h3, h4, h5⟩ := fmw_sound env kret fuel base false r evs h
  refine ⟨h1, ?_, h4, ?_, h5⟩
  · rw [h3]
    simp
  · intro e he
    rw [h2] at he
    simp only [Option.mem_def, Option.some.injEq] at he
    subst he
    rfl

/-- Witness for C7: with the environment constantly showing `lock = 0`,
one round returns immediately with the fast flag and the single-read
trace. -/
theorem wait_for_free_spec_witness :
    futex_mutex_wait (fun _ => 0) (fun _ => 0) 1 0 false =
        some (false, [.readLock 0]) ∧
      ([MemEv.readLock 0].getLast? = some (.readLock 0) ∧
        (false = true ↔ MemEv.kwaitWait 1 ∈ [MemEv.readLock 0]) ∧
        List.Chain' kwDisc [MemEv.readLock 0] ∧
        (∀ e ∈ [MemEv.readLock 0].head?, isKernelWait e = false) ∧
        (∀ e ∈ [MemEv.readLock 0], mutatesLock e = false ∧
          (mutatesWait e = true → e = .writeWait 1))) :=
  ⟨by decide,
    wait_for_free_spec (fun _ => 0) (fun _ => 0) 1 0 false [.readLock 0] (by decide)⟩

/-- Adjacency discipline for kernel waits in lock-acquisition and
wait-for-free traces: any kernel wait event is immediately followed by
a fresh read of `lock` — the enclosing loop's state check — rather than
by a return or an error path. -/
def kwFollow (a b : MemEv) : Prop :=
  isKernelWait a = true → ∃ v, b = .readLock v

theorem mem_of_getLast?_eq {α : Type} {l : List α} {x : α}
    (h : l.getLast? = some x) : x ∈ l := by
  obtain ⟨hne, hx⟩ := List.mem_getLast?_eq_getLast (l := l) (x := x) h
  rw [hx]
  exact List.getLast_mem hne

theorem chain'_kwFollow_of_reads {l : List MemEv}
    (h : ∀ e ∈ l, ∃ v, e = .readLock v) : List.Chain' kwFollow l := by
  induction l with
  | nil => exact List.chain'_nil
  | cons a l ih =>
    refine List.chain'_cons'.2 ⟨?_, ih fun e he => h e (List.mem_cons_of_mem a he)⟩
    intro y _ hkw
    obtain ⟨v, hv⟩ := h a (List.mem_cons_self a l)
    rw [hv] at hkw
    simp [isKernelWait] at hkw

/-- Sequential model of the slow loop of `futex_mutex_lock`
(lines 53-65).  Each iteration reads `lock` (value `env i`); if the
observed value is odd it calls `futex_wait(&m->lock, old_c)` — whose
return value `kret i` is discarded — and retries with `did_futex = 1`;
if even it attempts the compare-and-swap to `old_c - 1`, which succeeds
exactly when the value at CAS time (`env (i+1)`) still equals `old_c`,
returning the accumulated `did_futex` flag.  `fuel` bounds the number
of iterations of the unbounded C loop. -/
def futex_mutex_lock_slow (env kret : Nat → Int) : Nat → Int → Nat → Option (Int × List MemEv)
  | 0, _, _ => none
  | fuel + 1, df, i =>
    let v := env i
    if v % 2 = 1 then
      let _ret : Int := kret i
      match futex_mutex_lock_slow env kret fuel 1 (i + 1) with
      | none => none
      | some (r, evs) => some (r, .readLock v :: .kwaitLock v :: evs)
    else if env (i + 1) = v then
      some (df, [.readLock v, .casLockOk v (wrap32 (v - 1))])
    else
      match futex_mutex_lock_slow env kret fuel df (i + 2) with
      | none => none
      | some (r, evs) => some (r, .readLock v :: .casLockFail v (env (i + 1)) :: evs)

/-- Sequential model of `futex_mutex_lock` (lines 35-66): the fast spin
phase (`count < lock_spin_count = 20`; the count advances only on the
pause branch, a failed CAS retries without advancing it), then the
`fetch_and_add(&m->lock, 2)` registration followed by the slow loop. -/
def futex_mutex_lock_model (env kret : Nat → Int) : Nat → Nat → Nat → Option (Int × List MemEv)
  | 0, _, _ => none
  | fuel + 1, count, i =>
    if count < 20 then
      let v := env i
      if v % 2 = 1 then
        match futex_mutex_lock_model env kret fuel (count + 1) (i + 1) with
        | none => none
        | some (r, evs) => some (r, .readLock v :: evs)
      else if env (i + 1) = v then
        some (0, [.readLock v, .casLockOk v (wrap32 (v + 1))])
      else
        match futex_mutex_lock_model env kret fuel count (i + 2) with
        | none => none
        | some (r, evs) => some (r, .readLock v :: .casLockFail v (env (i + 1)) :: evs)
    else
      match futex_mutex_lock_slow env kret fuel 0 (i + 1) with
      | none => none
      | some (r, evs) => some (r, .faddLock 2 (env i) :: evs)

theorem lock_slow_kret_irrelevant (env kret kret2 : Nat → Int) :
    ∀ (fuel : Nat) (df : Int) (i : Nat),
      futex_mutex_lock_slow env kret fuel df i =
        futex_mutex_lock_slow env kret2 fuel df i := by
  intro fuel
  induction fuel with
  | zero => intro df i; rfl
  | succ fuel ih =>
    intro df i
    simp only [futex_mutex_lock_slow, ih]

theorem lock_model_kret_irrelevant (env kret kret2 : Nat → Int) :
    ∀ (fuel count i : Nat),
      futex_mutex_lock_model env kret fuel count i =
        futex_mutex_lock_model env kret2 fuel count i := by
  intro fuel
  induction fuel with
  | zero => intro count i; rfl
  | succ fuel ih =>
    intro count i
    simp only [futex_mutex_lock_model, ih, lock_slow_kret_irrelevant env kret kret2]

theorem wait_kret_irrelevant (env kret kret2 : Nat → Int) :
    ∀ (fuel base : Nat) (df : Bool),
      futex_mutex_wait env kret fuel base df =
        futex_mutex_wait env kret2 fuel base df := by
  intro fuel
  induction fuel with
  | zero => intro base df; rfl
  | succ fuel ih =>
    intro base df
    simp only [futex_mutex_wait, ih]

theorem lock_slow_trace_shape (env kret : Nat → Int) :
    ∀ (fuel : Nat) (df : Int) (i : Nat) (r : Int) (evs : List MemEv),
      futex_mutex_lock_slow env kret fuel df i = some (r, evs) →
      evs.head? = some (.readLock (env i)) ∧
      List.Chain' kwFollow evs ∧
      (∃ v, evs.getLast? = some (.casLockOk v (wrap32 (v - 1)))) := by
  intro fuel
  induction fuel with
  | zero => intro df i r evs h; simp [futex_mutex_lock_slow] at h
  | succ fuel ih =>
    intro df i r evs h
    simp only [futex_mutex_lock_slow] at h
    by_cases hodd : env i % 2 = 1
    · rw [if_pos hodd] at h
      cases hrec : futex_mutex_lock_slow env kret fuel 1 (i + 1) with
      | none => rw [hrec] at h; simp at h
      | some p =>
        obtain ⟨r2, evs2⟩ := p
        rw [hrec] at h
        obtain ⟨hr, hevs⟩ : r2 = r ∧ .readLock (env i) :: .kwaitLock (env i) :: evs2 = evs := by
          have := h; simp at this; exact this
        subst hr
        subst hevs
        obtain ⟨ih1, ih2, ih3⟩ := ih 1 (i + 1) r2 evs2 hrec
        have hne2 : evs2 ≠ [] := by
          intro hnil
          rw [hnil] at ih1
          simp at ih1
        refine ⟨rfl, ?_, ?_⟩
        · refine List.chain'_cons'.2 ⟨?_, List.chain'_cons'.2 ⟨?_, ih2⟩⟩
          · intro y _ hkw; simp [isKernelWait] at hkw
          · intro y hy _
            rw [ih1] at hy
            simp only [Option.mem_def, Option.some.injEq] at hy
            exact ⟨env (i + 1), hy.symm⟩
        · obtain ⟨v, hv⟩ := ih3
          refine ⟨v, ?_⟩
          calc (MemEv.readLock (env i) :: .kwaitLock (env i) :: evs2).getLast?
              = ([MemEv.readLock (env i), .kwaitLock (env i)] ++ evs2).getLast? := rfl
            _ = evs2.getLast? := List.getLast?_append_of_ne_nil _ hne2
            _ = some (.casLockOk v (wrap32 (v - 1))) := hv
    · rw [if_neg hodd] at h
      by_cases hcas : env (i + 1) = env i
      · rw [if_pos hcas] at h
        obtain ⟨hr, hevs⟩ : df = r ∧
            [MemEv.readLock (env i), .casLockOk (env i) (wrap32 (env i - 1))] = evs := by
          have := h; simp at this; exact this
        subst hr
        subst hevs
        refine ⟨rfl, ?_, ⟨env i, rfl⟩⟩
        refine List.chain'_cons'.2 ⟨?_, List.chain'_singleton _⟩
        intro y _ hkw; simp [isKernelWait] at hkw
      · rw [if_neg hcas] at h
        cases hrec : futex_mutex_lock_slow env kret fuel df (i + 2) with
        | none => rw [hrec] at h; simp at h
        | some p =>
          obtain ⟨r2, evs2⟩ := p
          rw [hrec] at h
          obtain ⟨hr, hevs⟩ : r2 = r ∧
              .readLock (env i) :: .casLockFail (env i) (env (i + 1)) :: evs2 = evs := by
            have := h; simp at this; exact this
          subst hr
          subst hevs
          obtain ⟨ih1, ih2, ih3⟩ := ih df (i + 2) r2 evs2 hrec
          have hne2 : evs2 ≠ [] := by
            intro hnil
            rw [hnil] at ih1
            simp at ih1
          refine ⟨rfl, ?_, ?_⟩
          · refine List.chain'_cons'.2 ⟨?_, List.chain'_cons'.2 ⟨?_, ih2⟩⟩
            · intro y _ hkw; simp [isKernelWait] at hkw
            · intro y _ hkw; simp [isKernelWait] at hkw
          · obtain ⟨v, hv⟩ := ih3
            refine ⟨v, ?_⟩
            calc (MemEv.readLock (env i) :: .casLockFail (env i) (env (i + 1)) :: evs2).getLast?
                = ([MemEv.readLock (env i), .casLockFail (env i) (env (i + 1))] ++ evs2).getLast? := rfl
              _ = evs2.getLast? := List.getLast?_append_of_ne_nil _ hne2
              _ = some (.casLockOk v (wrap32 (v - 1))) := hv

theorem wait_trace_kwFollow (env kret : Nat → Int) :
    ∀ (fuel base : Nat) (df r : Bool) (evs : List MemEv),
      futex_mutex_wait env kret fuel base df = some (r, evs) →
      List.Chain' kwFollow evs := by
  intro fuel
  induction fuel with
  | zero => intro base df r evs h; simp [futex_mutex_wait] at h
  | succ fuel ih =>
    intro base df r evs h
    simp only [futex_mutex_wait] at h
    by_cases hz : (findZero env base 20).isSome
    · rw [if_pos hz] at h
      obtain ⟨hr, hevs⟩ : df = r ∧ spinEvs env base 20 = evs := by
        have := h; simp at this; exact this
      subst hevs
      exact chain'_kwFollow_of_reads (spinEvs_forall_read env 20 base)
    · rw [if_neg hz] at h
      cases hrec : futex_mutex_wait env kret fuel (base + 20) true with
      | none => rw [hrec] at h; simp at h
      | some p =>
        obtain ⟨r2, evs2⟩ := p
        rw [hrec] at h
        obtain ⟨hr, hevs⟩ : r2 = r ∧
            spinEvs env base 20 ++ .writeWait 1 :: .kwaitWait 1 :: evs2 = evs := by
          have := h; simp at this; exact this
        subst hevs
        have hhead2 := (fmw_sound env kret fuel (base + 20) true r2 evs2 hrec).2.1
        refine List.Chain'.append (chain'_kwFollow_of_reads (spinEvs_forall_read env 20 base))
          ?_ ?_
        · refine List.chain'_cons'.2 ⟨?_, List.chain'_cons'.2 ⟨?_, ih (base + 20) true r2 evs2 hrec⟩⟩
          · intro y _ hkw; simp [isKernelWait] at hkw
          · intro y hy _
            rw [hhead2] at hy
            simp only [Option.mem_def, Option.some.injEq] at hy
            exact ⟨env (base + 20), hy.symm⟩
        · intro x hx y _
          intro hkw
          obtain ⟨v, hv⟩ := spinEvs_forall_read env 20 base x (mem_of_getLast?_eq hx)
          rw [hv] at hkw
          simp [isKernelWait] at hkw

/-- C9: neither Acquire's slow loop nor WaitForFree surfaces an error:
the kernel-wait return-value oracle `kret` has no influence on any of
the three models (the syscall results are discarded), every kernel wait
in a completed trace is immediately followed by the enclosing loop's
fresh read of `lock`, and no completed trace ends in a kernel wait —
the operations return only through their normal state checks. -/
theorem kernel_wait_errors_absorbed :
    (∀ (env kret kret2 : Nat → Int) (fuel : Nat) (df : Int) (i : Nat),
      futex_mutex_lock_slow env kret fuel df i = futex_mutex_lock_slow env kret2 fuel df i) ∧
    (∀ (env kret kret2 : Nat → Int) (fuel count i : Nat),
      futex_mutex_lock_model env kret fuel count i =
        futex_mutex_lock_model env kret2 fuel count i) ∧
    (∀ (env kret kret2 : Nat → Int) (fuel base : Nat) (df : Bool),
      futex_mutex_wait env kret fuel base df = futex_mutex_wait env kret2 fuel base df) ∧
    (∀ (env kret : Nat → Int) (fuel : Nat) (df : Int) (i : Nat) (r : Int) (evs : List MemEv),
      futex_mutex_lock_slow env kret fuel df i = some (r, evs) →
      List.Chain' kwFollow evs ∧
      (∀ e ∈ evs.getLast?, isKernelWait e = false)) ∧
    (∀ (env kret : Nat → Int) (fuel base : Nat) (df r : Bool) (evs : List MemEv),
      futex_mutex_wait env kret fuel base df = some (r, evs) →
      List.Chain' kwFollow evs ∧
      (∀ e ∈ evs.getLast?, isKernelWait e = false)) := by
  refine ⟨lock_slow_kret_irrelevant, lock_model_kret_irrelevant, wait_kret_irrelevant,
    ?_, ?_⟩
  · intro env kret fuel df i r evs h
    obtain ⟨_, h2, v, h3⟩ := lock_slow_trace_shape env kret fuel df i r evs h
    refine ⟨h2, ?_⟩
    intro e he
    rw [h3] at he
    simp only [Option.mem_def, Option.some.injEq] at he
    subst he
    rfl
  · intro env kret fuel base df r evs h
    have h1 := (fmw_sound env kret fuel base df r evs h).1
    refine ⟨wait_trace_kwFollow env kret fuel base df r evs h, ?_⟩
    intro e he
    rw [h1] at he
    simp only [Option.mem_def, Option.some.injEq] at he
    subst he
    rfl

/-- Witness for C9: the final conjunct applied at a concrete completed
wait-for-free trace (environment constantly 0, one round). -/
theorem kernel_wait_errors_absorbed_witness :
    futex_mutex_wait (fun _ => 0) (fun _ => 7) 1 0 false =
        some (false, [.readLock 0]) ∧
      (List.Chain' kwFollow [MemEv.readLock 0] ∧
        (∀ e ∈ [MemEv.readLock 0].getLast?, isKernelWait e = false)) :=
  ⟨by decide,
    kernel_wait_errors_absorbed.2.2.2.2 (fun _ => 0) (fun _ => 7) 1 0 false false
      [.readLock 0] (by decide)⟩

/-- Thread-local control state of a thread running
`futex_mutex_lock` / `futex_mutex_unlock` cycles, with one constructor
per program point between two shared-memory accesses.  `count` is the
fast-phase spin counter; `old` carries an observed `lock` value across
the gap between its read and the subsequent CAS (or unlock's captured
pre-subtraction value); `df` is the program variable `did_futex`; `nw`
is a ghost counter of the `futex_wait` calls issued during the current
acquisition (it influences nothing and records the kernel-path use). -/
inductive TState where
  | idle
  | fastLoop (count : Nat)
  | fastCas (count : Nat) (old : Int)
  | slowEnter
  | slowLoop (df : Bool) (nw : Nat)
  | slowSleep (df : Bool) (nw : Nat) (old : Int)
  | slowCas (df : Bool) (nw : Nat) (old : Int)
  | holding (df : Bool) (nw : Nat)
  | relAfterDec (old : Int)
  | relClearWait
deriving DecidableEq, Repr

/-- A global configuration: the two shared fields and every thread's
control state. -/
structure Config (α : Type) where
  lock : Int
  wait : Int
  ts : α → TState

/-- Initial configuration: both fields zero-initialized, all threads
outside the mutex code. -/
def initConfig (α : Type) : Config α :=
  ⟨0, 0, fun _ => .idle⟩

/-- Is the thread inside its critical section (between the return of
`futex_mutex_lock` and its call of `futex_mutex_unlock`)? -/
def isHolding : TState → Bool
  | .holding _ _ => true
  | _ => false

/-- One interleaving step: thread `t` performs its next shared-memory
access of `futex_mutex_lock` (lines 35-66) or `futex_mutex_unlock`
(lines 68-80).  Every arithmetic store wraps to 32 bits.  `futex_wait`
blocks or returns at the kernel's discretion, so `slowWaitReturn` is
enabled unconditionally (covering immediate `EWOULDBLOCK` returns,
real wakes and spurious wakes alike); its return value is discarded by
the code and hence not modelled. -/
inductive Step {α : Type} [DecidableEq α] (t : α) : Config α → Config α → Prop where
  | callLock {c : Config α} (h : c.ts t = .idle) :
      Step t c { c with ts := Function.update c.ts t (.fastLoop 0) }
  | fastReadOdd {c : Config α} {n : Nat} (h : c.ts t = .fastLoop n) (hn : n < 20)
      (hv : c.lock % 2 = 1) :
      Step t c { c with ts := Function.update c.ts t (.fastLoop (n + 1)) }
  | fastReadEven {c : Config α} {n : Nat} (h : c.ts t = .fastLoop n) (hn : n < 20)
      (hv : c.lock % 2 = 0) :
      Step t c { c with ts := Function.update c.ts t (.fastCas n c.lock) }
  | fastGiveUp {c : Config α} {n : Nat} (h : c.ts t = .fastLoop n) (hn : ¬ n < 20) :
      Step t c { c with ts := Function.update c.ts t .slowEnter }
  | fastCasOk {c : Config α} {n : Nat} {old : Int} (h : c.ts t = .fastCas n old)
      (hv : c.lock = old) :
      Step t c { c with lock := wrap32 (old + 1),
                        ts := Function.update c.ts t (.holding false 0) }
  | fastCasFail {c : Config α} {n : Nat} {old : Int} (h : c.ts t = .fastCas n old)
      (hv : c.lock ≠ old) :
      Step t c { c with ts := Function.update c.ts t (.fastLoop n) }
  | slowRegister {c : Config α} (h : c.ts t = .slowEnter) :
      Step t c { c with lock := wrap32 (c.lock + 2),
                        ts := Function.update c.ts t (.slowLoop false 0) }
  | slowReadOdd {c : Config α} {df : Bool} {nw : Nat} (h : c.ts t = .slowLoop df nw)
      (hv : c.lock % 2 = 1) :
      Step t c { c with ts := Function.update c.ts t (.slowSleep df nw c.lock) }
  | slowReadEven {c : Config α} {df : Bool} {nw : Nat} (h : c.ts t = .slowLoop df nw)
      (hv : c.lock % 2 = 0) :
      Step t c { c with ts := Function.update c.ts t (.slowCas df nw c.lock) }
  | slowWaitReturn {c : Config α} {df : Bool} {nw : Nat} {old : Int}
      (h : c.ts t = .slowSleep df nw old) :
      Step t c { c with ts := Function.update c.ts t (.slowLoop true (nw + 1)) }
  | slowCasOk {c : Config α} {df : Bool} {nw : Nat} {old : Int}
      (h : c.ts t = .slowCas df nw old) (hv : c.lock = old) :
      Step t c { c with lock := wrap32 (old - 1),
                        ts := Function.update c.ts t (.holding df nw) }
  | slowCasFail {c : Config α} {df : Bool} {nw : Nat} {old : Int}
      (h : c.ts t = .slowCas df nw old) (hv : c.lock ≠ old) :
      Step t c { c with ts := Function.update c.ts t (.slowLoop df nw) }
  | callUnlock {c : Config α} {df : Bool} {nw : Nat} (h : c.ts t = .holding df nw) :
      Step t c { c with lock := wrap32 (c.lock - 1),
                        ts := Function.update c.ts t (.relAfterDec c.lock) }
  | relWake1 {c : Config α} {old : Int} (h : c.ts t = .relAfterDec old) (hv : old ≠ 0) :
      Step t c { c with ts := Function.update c.ts t .idle }
  | relReadWaitPos {c : Config α} {old : Int} (h : c.ts t = .relAfterDec old)
      (hv : old = 0) (hw : c.wait ≠ 0) :
      Step t c { c with ts := Function.update c.ts t .relClearWait }
  | relReadWaitZero {c : Config α} {old : Int} (h : c.ts t = .relAfterDec old)
      (hv : old = 0) (hw : c.wait = 0) :
      Step t c { c with ts := Function.update c.ts t .idle }
  | relClear {c : Config α} (h : c.ts t = .relClearWait) :
      Step t c { c with wait := 0, ts := Function.update c.ts t .idle }

/-- Reachability from a fixed start configuration by any interleaving
of steps of any threads. -/
inductive Reach {α : Type} [DecidableEq α] (c0 : Config α) : Config α → Prop where
  | refl : Reach c0 c0
  | tail {b c2 : Config α} {t : α} : Reach c0 b → Step t b c2 → Reach c0 c2

/-- Per-thread part of the inductive invariant: the fast spin counter
never exceeds `lock_spin_count = 20`; an observed value stored for a
pending CAS is even and in 32-bit range; the `did_futex` flag is set
exactly when the ghost kernel-wait counter is positive. -/
def stOk : TState → Prop
  | .fastLoop n => n ≤ 20
  | .fastCas n old => n < 20 ∧ old % 2 = 0 ∧ int32Range old
  | .slowLoop df nw => df = true ↔ 1 ≤ nw
  | .slowSleep df nw _ => df = true ↔ 1 ≤ nw
  | .slowCas df nw old => (df = true ↔ 1 ≤ nw) ∧ old % 2 = 0 ∧ int32Range old
  | .holding df nw => df = true ↔ 1 ≤ nw
  | _ => True

/-- The inductive invariant: `lock` stays in 32-bit range, every thread
state is well formed, bit 0 of `lock` is set exactly when some thread
is in its critical section, and at most one thread ever is. -/
def MutexInv {α : Type} (c : Config α) : Prop :=
  int32Range c.lock ∧
  (∀ t, stOk (c.ts t)) ∧
  (c.lock % 2 = 1 ↔ ∃ t, isHolding (c.ts t) = true) ∧
  (∀ t u, isHolding (c.ts t) = true → isHolding (c.ts u) = true → t = u)

theorem stOk_update {α : Type} [DecidableEq α] {ts : α → TState} {t : α} {s : TState}
    (h : ∀ u, stOk (ts u)) (hs : stOk s) :
    ∀ u, stOk (Function.update ts t s u) := by
  intro u
  rcases eq_or_ne u t with rfl | hne
  · rw [Function.update_same]; exact hs
  · rw [Function.update_noteq hne]; exact h u

theorem exists_holding_update_false {α : Type} [DecidableEq α] {ts : α → TState}
    {t : α} {s : TState} (hs : isHolding s = false) (ht : isHolding (ts t) = false) :
    (∃ u, isHolding (Function.update ts t s u) = true) ↔
      (∃ u, isHolding (ts u) = true) := by
  constructor
  · rintro ⟨u, hu⟩
    rcases eq_or_ne u t with rfl | hne
    · rw [Function.update_same] at hu
      rw [hs] at hu
      exact Bool.noConfusion hu
    · rw [Function.update_noteq hne] at hu
      exact ⟨u, hu⟩
  · rintro ⟨u, hu⟩
    rcases eq_or_ne u t with rfl | hne
    · rw [ht] at hu
      exact Bool.noConfusion hu
    · exact ⟨u, by rw [Function.update_noteq hne]; exact hu⟩

theorem uniq_update_not_holding {α : Type} [DecidableEq α] {ts : α → TState}
    {t : α} {s : TState} (hs : isHolding s = false)
    (h : ∀ u v, isHolding (ts u) = true → isHolding (ts v) = true → u = v) :
    ∀ u v, isHolding (Function.update ts t s u) = true →
      isHolding (Function.update ts t s v) = true → u = v := by
  intro u v hu hv
  rcases eq_or_ne u t with rfl | hneu
  · rw [Function.update_same] at hu
    rw [hs] at hu
    exact Bool.noConfusion hu
  · rcases eq_or_ne v t with rfl | hnev
    · rw [Function.update_same] at hv
      rw [hs] at hv
      exact Bool.noConfusion hv
    · rw [Function.update_noteq hneu] at hu
      rw [Function.update_noteq hnev] at hv
      exact h u v hu hv

theorem inv_neutral {α : Type} [DecidableEq α] {c : Config α} {t : α} {s : TState}
    {l2 w2 : Int} (hinv : MutexInv c) (hl : int32Range l2) (hp : l2 % 2 = c.lock % 2)
    (hs : isHolding s = false) (ht : isHolding (c.ts t) = false) (hok : stOk s) :
    MutexInv { lock := l2, wait := w2, ts := Function.update c.ts t s } := by
  obtain ⟨h1, h2, h3, h4⟩ := hinv
  refine ⟨hl, stOk_update h2 hok, ?_, uniq_update_not_holding hs h4⟩
  show l2 % 2 = 1 ↔ _
  rw [hp, exists_holding_update_false hs ht]
  exact h3

theorem inv_acquire {α : Type} [DecidableEq α] {c : Config α} {t : α} {df : Bool}
    {nw : Nat} {l2 : Int} (hinv : MutexInv c) (heven : c.lock % 2 = 0)
    (hl : int32Range l2) (hodd : l2 % 2 = 1) (hok : stOk (TState.holding df nw)) :
    MutexInv { lock := l2, wait := c.wait, ts := Function.update c.ts t (.holding df nw) } := by
  obtain ⟨h1, h2, h3, h4⟩ := hinv
  have hnone : ∀ u, isHolding (c.ts u) = false := by
    intro u
    cases hh : isHolding (c.ts u) with
    | false => rfl
    | true =>
      have := h3.mpr ⟨u, hh⟩
      omega
  refine ⟨hl, stOk_update h2 hok, ?_, ?_⟩
  · constructor
    · intro _
      refine ⟨t, ?_⟩
      show isHolding (Function.update c.ts t (.holding df nw) t) = true
      rw [Function.update_same]
      rfl
    · intro _
      exact hodd
  · intro u v hu hv
    replace hu : isHolding (Function.update c.ts t (.holding df nw) u) = true := hu
    replace hv : isHolding (Function.update c.ts t (.holding df nw) v) = true := hv
    by_cases hut : u = t
    · by_cases hvt : v = t
      · rw [hut, hvt]
      · rw [Function.update_noteq hvt, hnone v] at hv
        exact Bool.noConfusion hv
    · rw [Function.update_noteq hut, hnone u] at hu
      exact Bool.noConfusion hu

theorem inv_release {α : Type} [DecidableEq α] {c : Config α} {t : α} {s : TState}
    {l2 w2 : Int} (hinv : MutexInv c) (hheld : isHolding (c.ts t) = true)
    (hs : isHolding s = false) (hok : stOk s) (hl : int32Range l2)
    (heven : l2 % 2 = 0) :
    MutexInv { lock := l2, wait := w2, ts := Function.update c.ts t s } := by
  obtain ⟨h1, h2, h3, h4⟩ := hinv
  refine ⟨hl, stOk_update h2 hok, ?_, uniq_update_not_holding hs h4⟩
  constructor
  · intro hcon
    replace hcon : l2 % 2 = 1 := hcon
    omega
  · rintro ⟨u, hu⟩
    exfalso
    replace hu : isHolding (Function.update c.ts t s u) = true := hu
    by_cases hut : u = t
    · rw [hut, Function.update_same] at hu
      rw [hs] at hu
      exact Bool.noConfusion hu
    · rw [Function.update_noteq hut] at hu
      exact hut (h4 u t hu hheld)

theorem mutexInv_init (α : Type) [DecidableEq α] : MutexInv (initConfig α) := by
  refine ⟨?_, fun t => trivial, ?_, ?_⟩
  · show int32Range (0 : Int)
    unfold int32Range
    exact ⟨by decide, by decide⟩
  · constructor
    · intro h
      replace h : (0 : Int) % 2 = 1 := h
      norm_num at h
    · rintro ⟨u, hu⟩
      exact Bool.noConfusion hu
  · intro u v hu _
    exact Bool.noConfusion hu

theorem mutexInv_step {α : Type} [DecidableEq α] {t : α} {c c2 : Config α}
    (hinv : MutexInv c) (hs : Step t c c2) : MutexInv c2 := by
  obtain ⟨h1, h2, h3, h4⟩ := hinv
  cases hs with
  | callLock h =>
    exact inv_neutral ⟨h1, h2, h3, h4⟩ h1 rfl rfl (by rw [h]; rfl) (by simp [stOk])
  | fastReadOdd h hn hv =>
    exact inv_neutral ⟨h1, h2, h3, h4⟩ h1 rfl rfl (by rw [h]; rfl)
      (by simp only [stOk]; omega)
  | fastReadEven h hn hv =>
    exact inv_neutral ⟨h1, h2, h3, h4⟩ h1 rfl rfl (by rw [h]; rfl)
      (by simp only [stOk]; exact ⟨hn, hv, h1⟩)
  | fastGiveUp h hn =>
    exact inv_neutral ⟨h1, h2, h3, h4⟩ h1 rfl rfl (by rw [h]; rfl) trivial
  | fastCasOk h hv =>
    have hst := h2 t
    rw [h] at hst
    simp only [stOk] at hst
    obtain ⟨hn20, hev, hrg⟩ := hst
    subst hv
    have hodd : wrap32 (c.lock + 1) % 2 = 1 := by rw [wrap32_emod_two]; omega
    exact inv_acquire ⟨h1, h2, h3, h4⟩ hev (wrap32_range _) hodd (by simp [stOk])
  | fastCasFail h hv =>
    have hst := h2 t
    rw [h] at hst
    simp only [stOk] at hst
    exact inv_neutral ⟨h1, h2, h3, h4⟩ h1 rfl rfl (by rw [h]; rfl)
      (by simp only [stOk]; omega)
  | slowRegister h =>
    exact inv_neutral ⟨h1, h2, h3, h4⟩ (wrap32_range _)
      (by rw [wrap32_emod_two]; omega) rfl (by rw [h]; rfl) (by simp [stOk])
  | slowReadOdd h hv =>
    have hst := h2 t
    rw [h] at hst
    simp only [stOk] at hst
    exact inv_neutral ⟨h1, h2, h3, h4⟩ h1 rfl rfl (by rw [h]; rfl)
      (by simp only [stOk]; exact hst)
  | slowReadEven h hv =>
    have hst := h2 t
    rw [h] at hst
    simp only [stOk] at hst
    exact inv_neutral ⟨h1, h2, h3, h4⟩ h1 rfl rfl (by rw [h]; rfl)
      (by simp only [stOk]; exact ⟨hst, hv, h1⟩)
  | slowWaitReturn h =>
    exact inv_neutral ⟨h1, h2, h3, h4⟩ h1 rfl rfl (by rw [h]; rfl)
      (by simp only [stOk]; constructor <;> intro <;> first | omega | trivial)
  | slowCasOk h hv =>
    have hst := h2 t
    rw [h] at hst
    simp only [stOk] at hst
    obtain ⟨hdf, hev, hrg⟩ := hst
    subst hv
    have hodd : wrap32 (c.lock - 1) % 2 = 1 := by rw [wrap32_emod_two]; omega
    exact inv_acquire ⟨h1, h2, h3, h4⟩ hev (wrap32_range _) hodd
      (by simp only [stOk]; exact hdf)
  | slowCasFail h hv =>
    have hst := h2 t
    rw [h] at hst
    simp only [stOk] at hst
    exact inv_neutral ⟨h1, h2, h3, h4⟩ h1 rfl rfl (by rw [h]; rfl)
      (by simp only [stOk]; exact hst.1)
  | callUnlock h =>
    have hheld : isHolding (c.ts t) = true := by rw [h]; rfl
    have hlodd : c.lock % 2 = 1 := h3.mpr ⟨t, hheld⟩
    have heven : wrap32 (c.lock - 1) % 2 = 0 := by rw [wrap32_emod_two]; omega
    exact inv_release ⟨h1, h2, h3, h4⟩ hheld rfl trivial (wrap32_range _) heven
  | relWake1 h hv =>
    exact inv_neutral ⟨h1, h2, h3, h4⟩ h1 rfl rfl (by rw [h]; rfl) trivial
  | relReadWaitPos h hv hw =>
    exact inv_neutral ⟨h1, h2, h3, h4⟩ h1 rfl rfl (by rw [h]; rfl) trivial
  | relReadWaitZero h hv hw =>
    exact inv_neutral ⟨h1, h2, h3, h4⟩ h1 rfl rfl (by rw [h]; rfl) trivial
  | relClear h =>
    exact inv_neutral ⟨h1, h2, h3, h4⟩ h1 rfl rfl (by rw [h]; rfl) trivial

theorem mutexInv_reach {α : Type} [DecidableEq α] {c : Config α}
    (h : Reach (initConfig α) c) : MutexInv c := by
  induction h with
  | refl => exact mutexInv_init α
  | tail hr hstep ih => exact mutexInv_step ih hstep

/-- C1: mutual exclusion — in every configuration reachable by any
interleaving (under sequentially consistent interleaving of the atomic
shared-memory accesses) of any set of threads running
`futex_mutex_lock` / `futex_mutex_unlock` cycles on the same
zero-initialized mutex, no two distinct threads are simultaneously
inside their critical sections (between their Acquire return and their
matching Release call). -/
theorem futex_mutex_mutual_exclusion {α : Type} [DecidableEq α] {c : Config α}
    (hr : Reach (initConfig α) c) (t u : α)
    (ht : isHolding (c.ts t) = true) (hu : isHolding (c.ts u) = true) : t = u :=
  (mutexInv_reach hr).2.2.2 t u ht hu

/-- Two-thread run: thread `false` calls Acquire on the fresh mutex. -/
def rc1 : Config Bool :=
  { initConfig Bool with ts := Function.update (initConfig Bool).ts false (.fastLoop 0) }

/-- Thread `false` reads `lock = 0` (even) in the fast spin phase. -/
def rc2 : Config Bool :=
  { rc1 with ts := Function.update rc1.ts false (.fastCas 0 rc1.lock) }

/-- Thread `false` wins the fast CAS `0 → 1` and enters its critical
section. -/
def rc3 : Config Bool :=
  { rc2 with lock := wrap32 (rc1.lock + 1),
             ts := Function.update rc2.ts false (.holding false 0) }

theorem step_rc1 : Step false (initConfig Bool) rc1 := Step.callLock rfl

theorem step_rc2 : Step false rc1 rc2 := Step.fastReadEven rfl (by decide) (by decide)

theorem step_rc3 : Step false rc2 rc3 := Step.fastCasOk rfl rfl

theorem reach_rc2 : Reach (initConfig Bool) rc2 :=
  .tail (.tail .refl step_rc1) step_rc2

theorem reach_rc3 : Reach (initConfig Bool) rc3 :=
  .tail reach_rc2 step_rc3

/-- Witness for C1: in the concrete reachable configuration where
thread `false` fast-acquired the fresh mutex, both holder positions are
that same thread. -/
theorem futex_mutex_mutual_exclusion_witness :
    isHolding (rc3.ts false) = true ∧ false = false := by
  have h : isHolding (rc3.ts false) = true := rfl
  exact ⟨h, futex_mutex_mutual_exclusion reach_rc3 false false h h⟩

/-- C4: the flag Acquire returns is 0 exactly when it never invoked the
kernel wait: in every reachable configuration, a thread that completed
an acquisition (control state `holding df nw`, where `df` is the
program's `did_futex` return value and the ghost counter `nw` counts
the `futex_wait` calls issued during that acquisition) has `df = true`
if and only if at least one kernel wait was issued; the fast-path
success enters `holding false 0`, returning 0. -/
theorem lock_flag_iff_kernel_wait {α : Type} [DecidableEq α] {c : Config α}
    (hr : Reach (initConfig α) c) (t : α) (df : Bool) (nw : Nat)
    (h : c.ts t = .holding df nw) : df = true ↔ 1 ≤ nw := by
  have hst := (mutexInv_reach hr).2.1 t
  rw [h] at hst
  simpa only [stOk] using hst

/-- Witness for C4 at the fast-path acquisition of `reach_rc3`: the
flag is 0 and the kernel-wait count is 0. -/
theorem lock_flag_iff_kernel_wait_witness :
    rc3.ts false = .holding false 0 ∧ (false = true ↔ 1 ≤ 0) := by
  have h : rc3.ts false = .holding false 0 := rfl
  exact ⟨h, lock_flag_iff_kernel_wait reach_rc3 false false 0 h⟩

theorem step_of_slowEnter {α : Type} [DecidableEq α] {t : α} {c c2 : Config α}
    (hs : Step t c c2) (h : c.ts t = .slowEnter) :
    c2.lock = wrap32 (c.lock + 2) ∧ c2.wait = c.wait ∧
    c2.ts = Function.update c.ts t (.slowLoop false 0) := by
  cases hs <;> try exact TState.noConfusion (h.symm.trans (by assumption))
  case slowRegister h0 => exact ⟨rfl, rfl, rfl⟩

theorem step_of_slowLoop {α : Type} [DecidableEq α] {t : α} {c c2 : Config α}
    {df : Bool} {nw : Nat} (hs : Step t c c2) (h : c.ts t = .slowLoop df nw) :
    c2.lock = c.lock ∧ c2.wait = c.wait ∧
    ((c.lock % 2 = 1 ∧ c2.ts = Function.update c.ts t (.slowSleep df nw c.lock)) ∨
     (c.lock % 2 = 0 ∧ c2.ts = Function.update c.ts t (.slowCas df nw c.lock))) := by
  cases hs <;> try exact TState.noConfusion (h.symm.trans (by assumption))
  case slowReadOdd df0 nw0 h0 hv =>
    injection h.symm.trans h0 with e1 e2
    subst e1
    subst e2
    exact ⟨rfl, rfl, Or.inl ⟨hv, rfl⟩⟩
  case slowReadEven df0 nw0 h0 hv =>
    injection h.symm.trans h0 with e1 e2
    subst e1
    subst e2
    exact ⟨rfl, rfl, Or.inr ⟨hv, rfl⟩⟩

theorem step_of_slowSleep {α : Type} [DecidableEq α] {t : α} {c c2 : Config α}
    {df : Bool} {nw : Nat} {old : Int} (hs : Step t c c2)
    (h : c.ts t = .slowSleep df nw old) :
    c2.lock = c.lock ∧ c2.wait = c.wait ∧
    c2.ts = Function.update c.ts t (.slowLoop true (nw + 1)) := by
  cases hs <;> try exact TState.noConfusion (h.symm.trans (by assumption))
  case slowWaitReturn df0 nw0 old0 h0 =>
    injection h.symm.trans h0 with e1 e2 e3
    subst e2
    exact ⟨rfl, rfl, rfl⟩

theorem step_of_slowCas {α : Type} [DecidableEq α] {t : α} {c c2 : Config α}
    {df : Bool} {nw : Nat} {old : Int} (hs : Step t c c2)
    (h : c.ts t = .slowCas df nw old) :
    c2.wait = c.wait ∧
    ((c.lock ≠ old ∧ c2.lock = c.lock ∧
        c2.ts = Function.update c.ts t (.slowLoop df nw)) ∨
     (c.lock = old ∧ c2.lock = wrap32 (old - 1) ∧
        c2.ts = Function.update c.ts t (.holding df nw))) := by
  cases hs <;> try exact TState.noConfusion (h.symm.trans (by assumption))
  case slowCasOk df0 nw0 old0 h0 hv =>
    injection h.symm.trans h0 with e1 e2 e3
    subst e1
    subst e2
    subst e3
    exact ⟨rfl, Or.inr ⟨hv, rfl, rfl⟩⟩
  case slowCasFail df0 nw0 old0 h0 hv =>
    injection h.symm.trans h0 with e1 e2 e3
    subst e1
    subst e2
    subst e3
    exact ⟨rfl, Or.inl ⟨hv, rfl, rfl⟩⟩

theorem step_of_fastLoop {α : Type} [DecidableEq α] {t : α} {c c2 : Config α}
    {n : Nat} (hs : Step t c c2) (h : c.ts t = .fastLoop n) :
    c2.lock = c.lock ∧ c2.wait = c.wait ∧
    ((n < 20 ∧ c.lock % 2 = 1 ∧
        c2.ts = Function.update c.ts t (.fastLoop (n + 1))) ∨
     (n < 20 ∧ c.lock % 2 = 0 ∧
        c2.ts = Function.update c.ts t (.fastCas n c.lock)) ∨
     (¬ n < 20 ∧ c2.ts = Function.update c.ts t .slowEnter)) := by
  cases hs <;> try exact TState.noConfusion (h.symm.trans (by assumption))
  case fastReadOdd n0 h0 hn hv =>
    injection h.symm.trans h0 with e1
    subst e1
    exact ⟨rfl, rfl, Or.inl ⟨hn, hv, rfl⟩⟩
  case fastReadEven n0 h0 hn hv =>
    injection h.symm.trans h0 with e1
    subst e1
    exact ⟨rfl, rfl, Or.inr (Or.inl ⟨hn, hv, rfl⟩)⟩
  case fastGiveUp n0 h0 hn =>
    injection h.symm.trans h0 with e1
    subst e1
    exact ⟨rfl, rfl, Or.inr (Or.inr ⟨hn, rfl⟩)⟩

theorem step_of_fastCas {α : Type} [DecidableEq α] {t : α} {c c2 : Config α}
    {n : Nat} {old : Int} (hs : Step t c c2) (h : c.ts t = .fastCas n old) :
    c2.wait = c.wait ∧
    ((c.lock ≠ old ∧ c2.lock = c.lock ∧
        c2.ts = Function.update c.ts t (.fastLoop n)) ∨
     (c.lock = old ∧ c2.lock = wrap32 (old + 1) ∧
        c2.ts = Function.update c.ts t (.holding false 0))) := by
  cases hs <;> try exact TState.noConfusion (h.symm.trans (by assumption))
  case fastCasOk n0 old0 h0 hv =>
    injection h.symm.trans h0 with e1 e2
    subst e1
    subst e2
    exact ⟨rfl, Or.inr ⟨hv, rfl, rfl⟩⟩
  case fastCasFail n0 old0 h0 hv =>
    injection h.symm.trans h0 with e1 e2
    subst e1
    subst e2
    exact ⟨rfl, Or.inl ⟨hv, rfl, rfl⟩⟩

/-- C3: once Acquire escalates, the registration
`__sync_fetch_and_add(&m->lock, 2)` happens exactly once (the single
transition out of the escalation point), after which the thread stays
in the slow loop forever — every step from a slow-loop control state
leads to a slow-loop control state or to the critical section, never
back to the fast path — and no slow-loop step changes `lock` except
the registration (+2) and the acquiring compare-and-swap, which
replaces the even observed value `v = 2*k` (bit 0 clear) by `v - 1 =
2*(k-1) + 1`: an odd value with one fewer registered contender. -/
theorem slow_phase_spec {α : Type} [DecidableEq α] {t : α} {c c2 : Config α}
    (hr : Reach (initConfig α) c) (hs : Step t c c2) :
    (c.ts t = .slowEnter →
      c2.lock = wrap32 (c.lock + 2) ∧ c2.ts t = .slowLoop false 0) ∧
    (∀ df nw, c.ts t = .slowLoop df nw →
      c2.lock = c.lock ∧
      ((c.lock % 2 = 1 ∧ c2.ts t = .slowSleep df nw c.lock) ∨
       (c.lock % 2 = 0 ∧ c2.ts t = .slowCas df nw c.lock))) ∧
    (∀ df nw old, c.ts t = .slowSleep df nw old →
      c2.lock = c.lock ∧ c2.ts t = .slowLoop true (nw + 1)) ∧
    (∀ df nw old, c.ts t = .slowCas df nw old →
      ((c.lock ≠ old ∧ c2.lock = c.lock ∧ c2.ts t = .slowLoop df nw) ∨
       (c.lock = old ∧ old % 2 = 0 ∧ c2.lock = wrap32 (old - 1) ∧
         c2.ts t = .holding df nw ∧
         (-2147483648 < old →
           ∃ k : Int, old = 2 * k ∧ c2.lock = 2 * (k - 1) + 1)))) := by
  refine ⟨?_, ?_, ?_, ?_⟩
  · intro h
    obtain ⟨hl, _, hts⟩ := step_of_slowEnter hs h
    refine ⟨hl, ?_⟩
    rw [hts]
    exact Function.update_same _ _ _
  · intro df nw h
    obtain ⟨hl, _, hd⟩ := step_of_slowLoop hs h
    refine ⟨hl, ?_⟩
    rcases hd with ⟨hp, hts⟩ | ⟨hp, hts⟩
    · exact Or.inl ⟨hp, by rw [hts]; exact Function.update_same _ _ _⟩
    · exact Or.inr ⟨hp, by rw [hts]; exact Function.update_same _ _ _⟩
  · intro df nw old h
    obtain ⟨hl, _, hts⟩ := step_of_slowSleep hs h
    exact ⟨hl, by rw [hts]; exact Function.update_same _ _ _⟩
  · intro df nw old h
    have hst := (mutexInv_reach hr).2.1 t
    rw [h] at hst
    simp only [stOk] at hst
    obtain ⟨hdf, hev, hrg⟩ := hst
    obtain ⟨_, hd⟩ := step_of_slowCas hs h
    rcases hd with ⟨hne, hl, hts⟩ | ⟨heq, hl, hts⟩
    · exact Or.inl ⟨hne, hl, by rw [hts]; exact Function.update_same _ _ _⟩
    · refine Or.inr ⟨heq, hev, hl, by rw [hts]; exact Function.update_same _ _ _, ?_⟩
      intro hgt
      obtain ⟨k, hk⟩ := Int.dvd_of_emod_eq_zero hev
      refine ⟨k, hk, ?_⟩
      unfold int32Range at hrg
      have hself : wrap32 (old - 1) = old - 1 :=
        wrap32_eq_self (by unfold int32Range; omega)
      rw [hl, hself]
      omega

/-- C6: in the fast spin phase the counter never exceeds
`lock_spin_count = 20` and advances only on the pause branch (taken
exactly when the read observed bit 0 set); once the budget is spent the
phase is left for escalation; after an even read `v = 2*k` the CAS
either fails — leaving `lock` and the counter unchanged and retrying
the phase — or succeeds, storing `v + 1 = 2*k + 1` (bit 0 set, upper
bits unchanged) and returning immediately with the fast result 0
(control state `holding false 0`). -/
theorem fast_phase_spec {α : Type} [DecidableEq α] {t : α} {c c2 : Config α}
    (hr : Reach (initConfig α) c) (hs : Step t c c2) :
    (∀ n, c.ts t = .fastLoop n → n ≤ 20) ∧
    (∀ n, c.ts t = .fastLoop n →
      c2.lock = c.lock ∧ c2.wait = c.wait ∧
      ((n < 20 ∧ c.lock % 2 = 1 ∧ c2.ts t = .fastLoop (n + 1)) ∨
       (n < 20 ∧ c.lock % 2 = 0 ∧ c2.ts t = .fastCas n c.lock) ∨
       (n = 20 ∧ c2.ts t = .slowEnter))) ∧
    (∀ n old, c.ts t = .fastCas n old →
      ((c.lock ≠ old ∧ c2.lock = c.lock ∧ c2.ts t = .fastLoop n) ∨
       (c.lock = old ∧ c2.ts t = .holding false 0 ∧
         ∃ k : Int, old = 2 * k ∧ c2.lock = 2 * k + 1))) := by
  refine ⟨?_, ?_, ?_⟩
  · intro n h
    have hst := (mutexInv_reach hr).2.1 t
    rw [h] at hst
    simpa only [stOk] using hst
  · intro n h
    have hle : n ≤ 20 := by
      have hst := (mutexInv_reach hr).2.1 t
      rw [h] at hst
      simpa only [stOk] using hst
    obtain ⟨hl, hw, hd⟩ := step_of_fastLoop hs h
    refine ⟨hl, hw, ?_⟩
    rcases hd with ⟨hn, hp, hts⟩ | ⟨hn, hp, hts⟩ | ⟨hn, hts⟩
    · exact Or.inl ⟨hn, hp, by rw [hts]; exact Function.update_same _ _ _⟩
    · exact Or.inr (Or.inl ⟨hn, hp, by rw [hts]; exact Function.update_same _ _ _⟩)
    · exact Or.inr (Or.inr ⟨by omega, by rw [hts]; exact Function.update_same _ _ _⟩)
  · intro n old h
    have hst := (mutexInv_reach hr).2.1 t
    rw [h] at hst
    simp only [stOk] at hst
    obtain ⟨hn, hev, hrg⟩ := hst
    obtain ⟨_, hd⟩ := step_of_fastCas hs h
    rcases hd with ⟨hne, hl, hts⟩ | ⟨heq, hl, hts⟩
    · exact Or.inl ⟨hne, hl, by rw [hts]; exact Function.update_same _ _ _⟩
    · refine Or.inr ⟨heq, by rw [hts]; exact Function.update_same _ _ _, ?_⟩
      obtain ⟨k, hk⟩ := Int.dvd_of_emod_eq_zero hev
      refine ⟨k, hk, ?_⟩
      unfold int32Range at hrg
      have hself : wrap32 (old + 1) = old + 1 :=
        wrap32_eq_self (by unfold int32Range; omega)
      rw [hl, hself]
      omega

/-- Witness for C6 at the concrete fast-CAS acquisition step of
`reach_rc3`: the CAS succeeds on the even observed value 0 and enters
the critical section with `lock = 1` and the fast result 0. -/
theorem fast_phase_spec_witness :
    rc2.ts false = .fastCas 0 rc1.lock ∧
    ((rc2.lock ≠ rc1.lock ∧ rc3.lock = rc2.lock ∧ rc3.ts false = .fastLoop 0) ∨
     (rc2.lock = rc1.lock ∧ rc3.ts false = .holding false 0 ∧
       ∃ k : Int, rc1.lock = 2 * k ∧ rc3.lock = 2 * k + 1)) := by
  have h : rc2.ts false = .fastCas 0 rc1.lock := rfl
  exact ⟨h, (fast_phase_spec reach_rc2 step_rc3).2.2 0 rc1.lock h⟩

theorem reach_trans {α : Type} [DecidableEq α] {a b c : Config α}
    (h1 : Reach a b) (h2 : Reach b c) : Reach a c := by
  induction h2 with
  | refl => exact h1
  | tail hr hs ih => exact .tail ih hs

theorem reach_spin :
    ∀ k : Nat, k ≤ 20 → ∀ c : Config Bool, c.lock % 2 = 1 →
      c.ts false = .fastLoop 0 →
      Reach c { c with ts := Function.update c.ts false (.fastLoop k) } := by
  intro k
  induction k with
  | zero =>
    intro _ c hodd h0
    have hts : Function.update c.ts false (.fastLoop 0) = c.ts := by
      conv_lhs => rw [← h0]
      exact Function.update_eq_self _ _
    rw [hts]
    exact .refl
  | succ k ih =>
    intro hk c hodd h0
    have ihr := ih (by omega) c hodd h0
    have h2 : Step false { c with ts := Function.update c.ts false (.fastLoop k) }
        { lock := c.lock, wait := c.wait,
          ts := Function.update (Function.update c.ts false (.fastLoop k)) false
            (.fastLoop (k + 1)) } :=
      Step.fastReadOdd (by show Function.update c.ts false (TState.fastLoop k) false = TState.fastLoop k; rw [Function.update_same]) (by omega) hodd
    rw [Function.update_idem] at h2
    exact .tail ihr h2

/-- Two-thread run for the slow path: thread `true` calls Acquire. -/
def sc1 : Config Bool :=
  { initConfig Bool with ts := Function.update (initConfig Bool).ts true (.fastLoop 0) }

/-- Thread `true` reads `lock = 0` (even). -/
def sc2 : Config Bool :=
  { sc1 with ts := Function.update sc1.ts true (.fastCas 0 sc1.lock) }

/-- Thread `true` wins the fast CAS; `lock = 1`. -/
def sc3 : Config Bool :=
  { sc2 with lock := wrap32 (sc1.lock + 1),
             ts := Function.update sc2.ts true (.holding false 0) }

/-- Thread `false` calls Acquire while the mutex is held. -/
def sc4 : Config Bool :=
  { sc3 with ts := Function.update sc3.ts false (.fastLoop 0) }

/-- Thread `false` has exhausted its 20-iteration spin budget. -/
def sc5 : Config Bool :=
  { sc4 with ts := Function.update sc4.ts false (.fastLoop 20) }

/-- Thread `false` leaves the fast phase for escalation. -/
def sc6 : Config Bool :=
  { sc5 with ts := Function.update sc5.ts false .slowEnter }

/-- Thread `false` registers as a contender; `lock = 3`. -/
def sc7 : Config Bool :=
  { sc6 with lock := wrap32 (sc6.lock + 2),
             ts := Function.update sc6.ts false (.slowLoop false 0) }

/-- Thread `true` releases; `lock = 2` (free, one contender). -/
def sc8 : Config Bool :=
  { sc7 with lock := wrap32 (sc7.lock - 1),
             ts := Function.update sc7.ts true (.relAfterDec sc7.lock) }

/-- Thread `false` reads the even value 2 in the slow loop. -/
def sc9 : Config Bool :=
  { sc8 with ts := Function.update sc8.ts false (.slowCas false 0 sc8.lock) }

/-- Thread `false` wins the slow CAS `2 → 1` and acquires. -/
def sc10 : Config Bool :=
  { sc9 with lock := wrap32 (sc8.lock - 1),
             ts := Function.update sc9.ts false (.holding false 0) }

theorem reach_sc4 : Reach (initConfig Bool) sc4 :=
  .tail (.tail (.tail (.tail .refl
    (Step.callLock (t := true) rfl))
    (Step.fastReadEven (t := true) rfl (by decide) (by decide)))
    (Step.fastCasOk (t := true) rfl rfl))
    (Step.callLock (t := false) rfl)

theorem reach_sc5 : Reach (initConfig Bool) sc5 :=
  reach_trans reach_sc4 (reach_spin 20 (by omega) sc4 (by decide) rfl)

theorem reach_sc9 : Reach (initConfig Bool) sc9 :=
  .tail (.tail (.tail (.tail reach_sc5
    (Step.fastGiveUp (t := false) rfl (by decide)))
    (Step.slowRegister (t := false) rfl))
    (Step.callUnlock (t := true) rfl))
    (Step.slowReadEven (t := false) rfl (by decide))

theorem step_sc10 : Step false sc9 sc10 := Step.slowCasOk rfl rfl

/-- Witness for C3 at the concrete slow-CAS acquisition of the run
`reach_sc9`: thread `false` replaces the even observed value 2
(one registered contender, free) by 1 (held, no contenders). -/
theorem slow_phase_spec_witness :
    sc9.ts false = .slowCas false 0 sc8.lock ∧
    ((sc9.lock ≠ sc8.lock ∧ sc10.lock = sc9.lock ∧
        sc10.ts false = .slowLoop false 0) ∨
     (sc9.lock = sc8.lock ∧ sc8.lock % 2 = 0 ∧
        sc10.lock = wrap32 (sc8.lock - 1) ∧
        sc10.ts false = .holding false 0 ∧
        (-2147483648 < sc8.lock →
          ∃ k : Int, sc8.lock = 2 * k ∧ sc10.lock = 2 * (k - 1) + 1))) := by
  have h : sc9.ts false = .slowCas false 0 sc8.lock := rfl
  exact ⟨h, (slow_phase_spec reach_sc9 step_sc10).2.2.2 false 0 sc8.lock h⟩
